import Mathlib

set_option maxRecDepth 4000

/-!
Verification of the structure-preserving resume rewriter (`resume_processor.py`).

The development shallowly embeds the program's core:
  * the Python floating-point computation `int(run_length / total * len(new_text))`
    (modelled exactly: IEEE-754 double rounding implemented on `Nat`/`Int`,
    with subnormals and overflow ignored since all operands in scope are far
    inside the normal range),
  * `_update_paragraph_text` (proportional text redistribution over run
    snapshots, including the hyperlink re-attachment failure mode),
  * `optimize_section`'s response cleaning and 120 % length cap,
  * `_count_sections` / `process_document` / `_process_table` (the recursive
    tree walk over paragraphs, tables and nested tables).
-/

/-! ## Python float model

A nonnegative IEEE double is represented exactly as a dyadic rational
`m / 2 ^ e`.  `roundQ a b` is round-to-nearest, ties-to-even of the real
number `a / b` at 53 significant bits, which is exactly what CPython's
int/int true division and float multiplication produce for the magnitudes
appearing in this program. -/

/-- Fuelled binary logarithm (`Nat.log2` is not kernel-reducible). -/
def log2F : Nat → Nat → Nat
  | 0, _ => 0
  | fuel+1, n => if n ≤ 1 then 0 else log2F fuel (n / 2) + 1

/-- `⌊log₂ n⌋`, correct for `n < 2 ^ 320` (far beyond every operand here). -/
def natLog2 (n : Nat) : Nat := log2F 320 n

/-- `a / b < 2 ^ k`, by cross multiplication. -/
def ltPow2 (a b : Nat) (k : Int) : Bool :=
  if 0 ≤ k then decide (a < b * 2 ^ k.toNat) else decide (a * 2 ^ (-k).toNat < b)

/-- `⌊log₂ (a / b)⌋` for positive naturals. -/
def floorLog2N (a b : Nat) : Int :=
  let k0 : Int := (natLog2 a : Int) - (natLog2 b : Int)
  if ltPow2 a b k0 then k0 - 1 else if ltPow2 a b (k0 + 1) then k0 else k0 + 1

/-- Round `n / d` to the nearest integer, ties to even. -/
def rne (n d : Nat) : Nat :=
  let q := n / d
  let r := n % d
  if 2 * r < d then q else if d < 2 * r then q + 1 else if q % 2 = 0 then q else q + 1

/-- A nonnegative double: value `m / 2 ^ e`. -/
structure Dyadic where
  m : Nat
  e : Int
deriving DecidableEq, Repr

/-- Correctly rounded double of `a / b` (round to nearest, ties to even). -/
def roundQ (a b : Nat) : Dyadic :=
  if a = 0 ∨ b = 0 then ⟨0, 0⟩
  else
    let e : Int := 52 - floorLog2N a b
    if 0 ≤ e then ⟨rne (a * 2 ^ e.toNat) b, e⟩
    else ⟨rne a (b * 2 ^ (-e).toNat), e⟩

/-- Correctly rounded double of the dyadic rational `m / 2 ^ e`. -/
def roundDyadic (m : Nat) (e : Int) : Dyadic :=
  if 0 ≤ e then roundQ m (2 ^ e.toNat) else roundQ (m * 2 ^ (-e).toNat) 1

/-- IEEE double multiplication (exact product, then one rounding). -/
def dmul (x y : Dyadic) : Dyadic := roundDyadic (x.m * y.m) (x.e + y.e)

/-- `float(n)` — conversion of a Python int to a double. -/
def floatOfNat (n : Nat) : Dyadic := roundQ n 1

/-- Python `int(x)` for a nonnegative double `x` (truncation = floor). -/
def dfloorNat (d : Dyadic) : Nat :=
  if 0 ≤ d.e then d.m / 2 ^ d.e.toNat else d.m * 2 ^ (-d.e).toNat

/-- Python's exact `int > float` comparison. -/
def natGtD (k : Nat) (d : Dyadic) : Bool :=
  if 0 ≤ d.e then decide (d.m < k * 2 ^ d.e.toNat) else decide (d.m * 2 ^ (-d.e).toNat < k)

/-- The slice length computed at `resume_processor.py:224-225`:
`int(run_length / original_text_length * new_text_length)` in Python floats. -/
def sliceLen (r L n : Nat) : Nat := dfloorNat (dmul (roundQ r L) (floatOfNat n))

/-- Exact rational value of the dyadic `m / 2 ^ e` (proof-side only). -/
def ratOf (m : Nat) (e : Int) : ℚ := (m : ℚ) * (2 : ℚ) ^ (-e)

/-- Exact rational value of a double (proof-side only). -/
def Dyadic.toRat (d : Dyadic) : ℚ := ratOf d.m d.e

/-! ## Run snapshots and `_update_paragraph_text`

`_update_paragraph_text` (resume_processor.py:178-259) snapshots every run's
text, named style, bold/italic/underline, font name/size/color and (via
`_get_hyperlink`) an optional hyperlink relationship id; clears the paragraph;
then rebuilds runs by slicing `new_text` proportionally.  `_add_hyperlink`
(lines 274-279) looks the relationship id up in `run.part.rels[rId]` with no
exception handling, so an unresolvable id raises `KeyError` there, aborting
the rest of the rebuild; the partially rebuilt paragraph is what remains. -/

/-- The per-run style attributes captured at resume_processor.py:185-195
(everything in the `original_runs` dict except `text` and `hyperlink`). -/
structure RunStyle where
  style : Option String
  bold : Option Bool
  italic : Option Bool
  underline : Option Bool
  font_name : Option String
  font_size : Option Nat
  font_color : Option Nat
deriving DecidableEq, Repr

/-- A text run: its text, its style attributes, and the hyperlink
relationship id it carries (for an original run, what `_get_hyperlink`
returns; for a rebuilt run, the id `_add_hyperlink` attached).  The same
shape serves as the snapshot entry of `original_runs` (lines 183-195) and
as a run appended to the rebuilt paragraph. -/
structure Run where
  text : List Char
  rstyle : RunStyle
  hyperlink : Option String
deriving DecidableEq, Repr

/-- Result of `_update_paragraph_text`: either the full new run list, or the
runs built before an unresolvable hyperlink id raised `KeyError` (the bad id
is recorded; the raising run itself was already added, styled, link-less). -/
inductive UpdateResult where
  | ok (runs : List Run)
  | failed (builtRuns : List Run) (badId : String)
deriving DecidableEq, Repr

/-- Concatenation of the snapshot texts (`original_full_text`, line 205). -/
def joinTexts (runs : List Run) : List Char := (runs.map (·.text)).flatten

/-- Concatenation of the texts of the rebuilt runs. -/
def joinNew (runs : List Run) : List Char := (runs.map (·.text)).flatten

/-- The run list carried by an `UpdateResult` (rebuilt paragraph content). -/
def resultRuns : UpdateResult → List Run
  | .ok rs => rs
  | .failed rs _ => rs

/-- The loop at resume_processor.py:220-244.  `rels` is the set of hyperlink
relationship ids that resolve in `run.part.rels`; `L` is
`original_text_length`; `pos` is the read cursor.  On success returns the
built runs and the final cursor; on a stale hyperlink id returns the runs
built so far (the raising run included, without its link) and the bad id. -/
def runLoop (rels : List String) (L : Nat) (t : List Char) :
    List Run → Nat → (List Run × Nat) ⊕ (List Run × String)
  | [], pos => .inl ([], pos)
  | r :: rs, pos =>
    let k := sliceLen r.text.length L t.length
    let s := (t.drop pos).take k
    if s.isEmpty then runLoop rels L t rs (pos + k)
    else
      match r.hyperlink with
      | none =>
        match runLoop rels L t rs (pos + k) with
        | .inl (out, p) => .inl (⟨s, r.rstyle, none⟩ :: out, p)
        | .inr (out, bad) => .inr (⟨s, r.rstyle, none⟩ :: out, bad)
      | some rId =>
        if rId ∈ rels then
          match runLoop rels L t rs (pos + k) with
          | .inl (out, p) => .inl (⟨s, r.rstyle, some rId⟩ :: out, p)
          | .inr (out, bad) => .inr (⟨s, r.rstyle, some rId⟩ :: out, bad)
        else .inr ([⟨s, r.rstyle, none⟩], rId)

/-- Style given to the trailing remainder run (resume_processor.py:250-259):
the last snapshot's attributes if there is one, otherwise none are set. -/
def lastStyle (runs : List Run) : RunStyle :=
  match runs.getLast? with
  | some r => r.rstyle
  | none => ⟨none, none, none, none, none, none, none⟩

/-- `_update_paragraph_text` (resume_processor.py:178-259).  If the captured
runs are all empty (`original_full_text` falsy, line 206) the function
returns right after clearing the paragraph: no runs are rebuilt and
`new_text` is dropped.  Otherwise the proportional loop runs, and any
remaining characters are appended as one extra run styled like the last
snapshot (lines 246-259; no hyperlink is attached to it). -/
def updateParagraphText (rels : List String) (runs : List Run)
    (t : List Char) : UpdateResult :=
  if (joinTexts runs).length = 0 then .ok []
  else
    match runLoop rels (joinTexts runs).length t runs 0 with
    | .inr (out, bad) => .failed out bad
    | .inl (out, pos) =>
      if pos < t.length then .ok (out ++ [⟨t.drop pos, lastStyle runs, none⟩])
      else .ok out

/-! ## `optimize_section`: response cleaning and the 120 % length cap -/

/-- Python `str.strip()` (leading and trailing whitespace removed). -/
def pstrip (l : List Char) : List Char :=
  ((l.dropWhile (fun c => c.isWhitespace)).reverse.dropWhile (fun c => c.isWhitespace)).reverse

/-- A backtick character (U+0060). -/
def btick : Char := Char.ofNat 96

/-- The three-backtick code-fence marker. -/
def fenceMarker : List Char := [btick, btick, btick]

/-- `response.startswith(three backticks) and response.endswith(three backticks)`. -/
def isFenced (l : List Char) : Bool :=
  decide (l.take 3 = fenceMarker) && decide (l.drop (l.length - 3) = fenceMarker)

/-- `_clean_response` (resume_processor.py:300-306): strip, drop a
surrounding code fence (`response[3:-3]`), strip, drop a leading
plain-text marker word (`response[4:]`), strip. -/
def clean_response (resp : List Char) : List Char :=
  let r1 := pstrip resp
  let r2 := if isFenced r1 then pstrip ((r1.drop 3).take (r1.length - 6)) else r1
  if r2.take 4 = [Char.ofNat 116, Char.ofNat 101, Char.ofNat 120, Char.ofNat 116]
  then pstrip (r2.drop 4) else r2

/-- The IEEE double nearest to 1.2 (the literal `1.2` in the source). -/
def d12 : Dyadic := ⟨5404319552844595, 52⟩

/-- `input_length * 1.2` (resume_processor.py:169): the int is converted to a
double, then multiplied by the double `1.2`. -/
def lengthCap (n : Nat) : Dyadic := dmul (floatOfNat n) d12

/-- `optimize_section` (resume_processor.py:156-173) after the generator
responded: clean the response; if its length exceeds the cap `n * 1.2`
(exact int-vs-float comparison), truncate to the first `n` characters.
The generator call itself is abstracted: `resp` is its return value. -/
def optimize_section (content resp : List Char) : List Char :=
  let adjusted := clean_response resp
  if natGtD adjusted.length (lengthCap content.length) then adjusted.take content.length
  else adjusted

/-! ## Paragraphs, formats and the document tree -/

/-- The paragraph-level format fields copied one by one by
`_copy_paragraph_format` (resume_processor.py:285-298), in source order.
The field values are opaque to the program, so they are modelled by
`Option` of simple carriers. -/
structure ParagraphFormat where
  left_indent : Option Int
  right_indent : Option Int
  space_before : Option Int
  space_after : Option Int
  line_spacing : Option Int
  line_spacing_rule : Option Nat
  alignment : Option Nat
  first_line_indent : Option Int
  keep_together : Option Bool
  keep_with_next : Option Bool
  page_break_before : Option Bool
  widow_control : Option Bool
deriving DecidableEq, Repr

/-- `_copy_paragraph_format` assigns every field of `target` from `source`;
the resulting value of `target` is therefore `source` field by field. -/
def copy_paragraph_format (_target source : ParagraphFormat) : ParagraphFormat :=
  { left_indent := source.left_indent
    right_indent := source.right_indent
    space_before := source.space_before
    space_after := source.space_after
    line_spacing := source.line_spacing
    line_spacing_rule := source.line_spacing_rule
    alignment := source.alignment
    first_line_indent := source.first_line_indent
    keep_together := source.keep_together
    keep_with_next := source.keep_with_next
    page_break_before := source.page_break_before
    widow_control := source.widow_control }

/-- A paragraph: its runs plus the paragraph-level properties the code
snapshots (style, alignment, format).  `python-docx`'s `clear_content`
removes only run content, never the paragraph-property element, so these
fields survive `_clear_paragraph`. -/
structure Paragraph where
  runs : List Run
  style : Option String
  alignment : Option Nat
  fmt : ParagraphFormat
deriving DecidableEq, Repr

/-- `paragraph.text`: concatenation of the run texts. -/
def paraText (p : Paragraph) : List Char := joinTexts p.runs

/-- `paragraph.text.strip()` (`original_text`, lines 61 and 102). -/
def strippedText (p : Paragraph) : List Char := pstrip (paraText p)

/-- The abstracted per-section generator call (`self.optimize_section` seen
from the walker): given the 1-based section counter and the stripped
original text, it returns the replacement text, or `none` if it raised. -/
abbrev Gen : Type := Nat → List Char → Option (List Char)

/-- One non-blank section's processing inside the `try` block
(resume_processor.py:65-90 and 106-131): call the generator; on success
rewrite the runs and reapply the snapshotted style, alignment and format
(whose values are unchanged, so the paragraph keeps them); if the rewrite
raises on a stale hyperlink, the paragraph keeps the partially rebuilt runs
(the `except` swallows the error; paragraph properties were preserved by
`clear_content`).  If the generator raised, nothing was mutated. -/
def processParagraph (rels : List String) (gen : Gen) (idx : Nat) (p : Paragraph) :
    Paragraph :=
  match gen idx (strippedText p) with
  | none => p
  | some adjusted =>
    match updateParagraphText rels p.runs adjusted with
    | .ok rs =>
      { p with runs := rs, style := p.style, alignment := p.alignment,
               fmt := copy_paragraph_format p.fmt p.fmt }
    | .failed rs _ => { p with runs := rs }

/-- The paragraph loop (resume_processor.py:60-91 / 101-132): visit each
paragraph in order, skipping blank ones; returns the rewritten paragraphs,
the final section counter, and the trace of texts sent to the generator. -/
def processParas (rels : List String) (gen : Gen) :
    List Paragraph → Nat → List Paragraph × Nat × List (List Char)
  | [], idx => ([], idx, [])
  | p :: ps, idx =>
    if (strippedText p).isEmpty then
      match processParas rels gen ps idx with
      | (qs, idx2, tr) => (p :: qs, idx2, tr)
    else
      match processParas rels gen ps (idx + 1) with
      | (qs, idx2, tr) =>
        (processParagraph rels gen (idx + 1) p :: qs, idx2, strippedText p :: tr)

mutual
/-- A table is an ordered list of rows. -/
inductive Table where
  | mk (rows : RowList)
/-- Rows of a table, in order. -/
inductive RowList where
  | nil
  | cons (row : CellList) (rest : RowList)
/-- Cells of a row, in order. -/
inductive CellList where
  | nil
  | cons (c : Cell) (rest : CellList)
/-- A cell: its own paragraphs, then its nested tables. -/
inductive Cell where
  | mk (paras : List Paragraph) (tables : TableList)
/-- A list of (nested) tables. -/
inductive TableList where
  | nil
  | cons (t : Table) (rest : TableList)
end

/-- A document: top-level paragraphs and top-level tables. -/
structure Document where
  paras : List Paragraph
  tables : TableList

/-- Number of non-blank paragraphs in a list (the paragraph halves of
`_count_sections` and `_count_sections_in_table`). -/
def countParas (ps : List Paragraph) : Nat :=
  ps.countP (fun p => !(strippedText p).isEmpty)

mutual
/-- `_count_sections_in_table` (resume_processor.py:325-334) on one table. -/
def countTable : Table → Nat
  | .mk rows => countRowList rows
def countRowList : RowList → Nat
  | .nil => 0
  | .cons row rest => countCellList row + countRowList rest
def countCellList : CellList → Nat
  | .nil => 0
  | .cons c rest => countCell c + countCellList rest
def countCell : Cell → Nat
  | .mk paras tables => countParas paras + countTableList tables
def countTableList : TableList → Nat
  | .nil => 0
  | .cons t rest => countTable t + countTableList rest
end

/-- `_count_sections` (resume_processor.py:316-323). -/
def count_sections (d : Document) : Nat := countParas d.paras + countTableList d.tables

mutual
/-- `_process_table` (resume_processor.py:97-136) on one table. -/
def processTable (rels : List String) (gen : Gen) :
    Table → Nat → Table × Nat × List (List Char)
  | .mk rows, idx =>
    match processRowList rels gen rows idx with
    | (rows2, idx2, tr) => (.mk rows2, idx2, tr)
def processRowList (rels : List String) (gen : Gen) :
    RowList → Nat → RowList × Nat × List (List Char)
  | .nil, idx => (.nil, idx, [])
  | .cons row rest, idx =>
    match processCellList rels gen row idx with
    | (row2, idx1, tr1) =>
      match processRowList rels gen rest idx1 with
      | (rest2, idx2, tr2) => (.cons row2 rest2, idx2, tr1 ++ tr2)
def processCellList (rels : List String) (gen : Gen) :
    CellList → Nat → CellList × Nat × List (List Char)
  | .nil, idx => (.nil, idx, [])
  | .cons c rest, idx =>
    match processCell rels gen c idx with
    | (c2, idx1, tr1) =>
      match processCellList rels gen rest idx1 with
      | (rest2, idx2, tr2) => (.cons c2 rest2, idx2, tr1 ++ tr2)
def processCell (rels : List String) (gen : Gen) :
    Cell → Nat → Cell × Nat × List (List Char)
  | .mk paras tables, idx =>
    match processParas rels gen paras idx with
    | (ps2, idx1, tr1) =>
      match processTableList rels gen tables idx1 with
      | (ts2, idx2, tr2) => (.mk ps2 ts2, idx2, tr1 ++ tr2)
def processTableList (rels : List String) (gen : Gen) :
    TableList → Nat → TableList × Nat × List (List Char)
  | .nil, idx => (.nil, idx, [])
  | .cons t rest, idx =>
    match processTable rels gen t idx with
    | (t2, idx1, tr1) =>
      match processTableList rels gen rest idx1 with
      | (rest2, idx2, tr2) => (.cons t2 rest2, idx2, tr1 ++ tr2)
end

/-- `process_document` (resume_processor.py:29-95): paragraphs first, then
tables; returns the mutated document, the final section counter and the
trace of texts sent to the generator, in visit order. -/
def process_document (rels : List String) (gen : Gen) (d : Document) :
    Document × Nat × List (List Char) :=
  match processParas rels gen d.paras 0 with
  | (ps, idx1, tr1) =>
    match processTableList rels gen d.tables idx1 with
    | (ts, idx2, tr2) => (⟨ps, ts⟩, idx2, tr1 ++ tr2)

/-- The non-blank paragraphs of a list, in order (specification side). -/
def flattenParas (ps : List Paragraph) : List Paragraph :=
  ps.filter (fun p => !(strippedText p).isEmpty)

mutual
/-- Specification-side traversal order of a table: row-major, and inside a
cell the cell's own paragraphs before its nested tables, depth first. -/
def flattenTable : Table → List Paragraph
  | .mk rows => flattenRowList rows
def flattenRowList : RowList → List Paragraph
  | .nil => []
  | .cons row rest => flattenCellList row ++ flattenRowList rest
def flattenCellList : CellList → List Paragraph
  | .nil => []
  | .cons c rest => flattenCell c ++ flattenCellList rest
def flattenCell : Cell → List Paragraph
  | .mk paras tables => flattenParas paras ++ flattenTableList tables
def flattenTableList : TableList → List Paragraph
  | .nil => []
  | .cons t rest => flattenTable t ++ flattenTableList rest
end

/-- Specification-side section order of a whole document: all non-blank
top-level paragraphs first, then the tables in order. -/
def docSections (d : Document) : List Paragraph :=
  flattenParas d.paras ++ flattenTableList d.tables

/-! ## Specification-side description of the redistribution -/

/-- The slice lengths the proportional pass computes, one per snapshot. -/
def totalSlices (runs : List Run) (t : List Char) (L : Nat) : Nat :=
  (runs.map (fun r => sliceLen r.text.length L t.length)).sum

/-- The consecutive slices of `t` cut by the proportional pass: the slice
for each snapshot is taken at the current cursor (the sum of all previous
slice lengths) and the cursor always advances by the computed length,
whether or not the slice is empty. -/
def specSlices (t : List Char) (L : Nat) : List Run → Nat → List (List Char)
  | [], _ => []
  | r :: rs, pos =>
    (t.drop pos).take (sliceLen r.text.length L t.length) ::
      specSlices t L rs (pos + sliceLen r.text.length L t.length)

/-- Specification-side output of the proportional pass: every snapshot with
a non-empty slice contributes one run carrying that slice, the snapshot's
style attributes and the snapshot's hyperlink id; empty slices contribute
nothing. -/
def specRuns (t : List Char) (L : Nat) : List Run → Nat → List Run
  | [], _ => []
  | r :: rs, pos =>
    (if ((t.drop pos).take (sliceLen r.text.length L t.length)).isEmpty then []
     else [⟨(t.drop pos).take (sliceLen r.text.length L t.length), r.rstyle, r.hyperlink⟩]) ++
      specRuns t L rs (pos + sliceLen r.text.length L t.length)

/-- Every hyperlink id captured in `runs` resolves in the part's
relationship collection. -/
def linksResolve (rels : List String) (runs : List Run) : Bool :=
  runs.all (fun r => r.hyperlink.all (fun id => rels.contains id))

/-- Specification-side result of a successful `_update_paragraph_text`:
nothing if all snapshot texts are empty; otherwise the proportional-pass
runs followed by one remainder run (styled like the last snapshot, no
hyperlink) exactly when the slices did not consume all of `t`. -/
def specUpdate (runs : List Run) (t : List Char) : List Run :=
  if (joinTexts runs).length = 0 then []
  else
    specRuns t (joinTexts runs).length runs 0 ++
      (if totalSlices runs t (joinTexts runs).length < t.length then
        [⟨t.drop (totalSlices runs t (joinTexts runs).length), lastStyle runs, none⟩]
      else [])

theorem specSlices_flatten (t : List Char) (L : Nat) :
    ∀ (rs : List Run) (pos : Nat),
      (specSlices t L rs pos).flatten = (t.drop pos).take (totalSlices rs t L)
  | [], pos => by simp [specSlices, totalSlices]
  | r :: rs, pos => by
    simp only [specSlices, List.flatten_cons, specSlices_flatten t L rs,
      totalSlices, List.map_cons, List.sum_cons]
    rw [List.take_add, List.drop_drop]

theorem specRuns_map_text (t : List Char) (L : Nat) :
    ∀ (rs : List Run) (pos : Nat),
      (specRuns t L rs pos).map (·.text) =
        (specSlices t L rs pos).filter (fun s => !s.isEmpty)
  | [], pos => by simp [specRuns, specSlices]
  | r :: rs, pos => by
    simp only [specRuns, specSlices, List.map_append, specRuns_map_text t L rs,
      List.filter_cons]
    by_cases h : ((t.drop pos).take (sliceLen r.text.length L t.length)).isEmpty <;>
      simp [h]

/-- On success, the loop result is the specification-side run list and the
final cursor is the sum of all computed slice lengths. -/
theorem runLoop_inl (rels : List String) (L : Nat) (t : List Char) :
    ∀ (rs : List Run) (pos : Nat) (out : List Run) (p : Nat),
      runLoop rels L t rs pos = .inl (out, p) →
      out = specRuns t L rs pos ∧ p = pos + totalSlices rs t L
  | [], pos, out, p, h => by
    simp only [runLoop, Sum.inl.injEq, Prod.mk.injEq] at h
    simp [specRuns, totalSlices, ← h.1, ← h.2]
  | ⟨rt, rsty, rlink⟩ :: rs, pos, out, p, h => by
    have ih := runLoop_inl rels L t rs (pos + sliceLen rt.length L t.length)
    cases rlink with
    | none =>
      simp only [runLoop] at h
      by_cases hs : ((t.drop pos).take (sliceLen rt.length L t.length)).isEmpty
      · rw [if_pos hs] at h
        obtain ⟨h1, h2⟩ := ih out p h
        simp only [specRuns, totalSlices, List.map_cons, List.sum_cons] at *
        simp only [hs, if_pos, List.nil_append, h1, h2, true_and, reduceIte]
        omega
      · rw [if_neg hs] at h
        rcases hrec : runLoop rels L t rs (pos + sliceLen rt.length L t.length)
          with ⟨out1, p1⟩ | ⟨out1, bad⟩ <;> rw [hrec] at h
        · simp only [Sum.inl.injEq, Prod.mk.injEq] at h
          obtain ⟨h1, h2⟩ := ih out1 p1 hrec
          simp only [specRuns, totalSlices, List.map_cons, List.sum_cons, hs,
            Bool.false_eq_true, reduceIte, List.singleton_append, ← h.1, ← h.2,
            List.cons.injEq, h1, h2, true_and]
          omega
        · exact absurd h (by simp)
    | some rId =>
      simp only [runLoop] at h
      by_cases hs : ((t.drop pos).take (sliceLen rt.length L t.length)).isEmpty
      · rw [if_pos hs] at h
        obtain ⟨h1, h2⟩ := ih out p h
        simp only [specRuns, totalSlices, List.map_cons, List.sum_cons] at *
        simp only [hs, if_pos, List.nil_append, h1, h2, true_and, reduceIte]
        omega
      · rw [if_neg hs] at h
        by_cases hm : rId ∈ rels
        · rw [if_pos hm] at h
          rcases hrec : runLoop rels L t rs (pos + sliceLen rt.length L t.length)
            with ⟨out1, p1⟩ | ⟨out1, bad⟩ <;> rw [hrec] at h
          · simp only [Sum.inl.injEq, Prod.mk.injEq] at h
            obtain ⟨h1, h2⟩ := ih out1 p1 hrec
            simp only [specRuns, totalSlices, List.map_cons, List.sum_cons, hs,
              Bool.false_eq_true, reduceIte, List.singleton_append, ← h.1, ← h.2,
              List.cons.injEq, h1, h2, true_and]
            omega
          · exact absurd h (by simp)
        · rw [if_neg hm] at h
          exact absurd h (by simp)

/-- On failure, the recorded id indeed does not resolve, and the content
written before the exception is an initial segment of `t` read from the
cursor. -/
theorem runLoop_inr (rels : List String) (L : Nat) (t : List Char) :
    ∀ (rs : List Run) (pos : Nat) (out : List Run) (bad : String),
      runLoop rels L t rs pos = .inr (out, bad) →
      ¬ bad ∈ rels ∧ ∃ n, joinNew out = (t.drop pos).take n
  | [], pos, out, bad, h => by simp [runLoop] at h
  | ⟨rt, rsty, rlink⟩ :: rs, pos, out, bad, h => by
    have ih := runLoop_inr rels L t rs (pos + sliceLen rt.length L t.length)
    cases rlink with
    | none =>
      simp only [runLoop] at h
      by_cases hs : ((t.drop pos).take (sliceLen rt.length L t.length)).isEmpty
      · rw [if_pos hs] at h
        obtain ⟨h1, n, h2⟩ := ih out bad h
        have hnil : (t.drop pos).take (sliceLen rt.length L t.length) = [] := by
          simpa using hs
        refine ⟨h1, sliceLen rt.length L t.length + n, ?_⟩
        rw [h2, List.take_add, List.drop_drop, hnil, List.nil_append]
      · rw [if_neg hs] at h
        rcases hrec : runLoop rels L t rs (pos + sliceLen rt.length L t.length)
          with ⟨out1, p1⟩ | ⟨out1, bad1⟩ <;> rw [hrec] at h
        · exact absurd h (by simp)
        · simp only [Sum.inr.injEq, Prod.mk.injEq] at h
          obtain ⟨h1, n, h2⟩ := ih out1 bad1 hrec
          refine ⟨h.2 ▸ h1, sliceLen rt.length L t.length + n, ?_⟩
          rw [← h.1, joinNew, List.map_cons, List.flatten_cons, List.take_add,
            List.drop_drop]
          exact congrArg _ (h2 ▸ rfl)
    | some rId =>
      simp only [runLoop] at h
      by_cases hs : ((t.drop pos).take (sliceLen rt.length L t.length)).isEmpty
      · rw [if_pos hs] at h
        obtain ⟨h1, n, h2⟩ := ih out bad h
        have hnil : (t.drop pos).take (sliceLen rt.length L t.length) = [] := by
          simpa using hs
        refine ⟨h1, sliceLen rt.length L t.length + n, ?_⟩
        rw [h2, List.take_add, List.drop_drop, hnil, List.nil_append]
      · rw [if_neg hs] at h
        by_cases hm : rId ∈ rels
        · rw [if_pos hm] at h
          rcases hrec : runLoop rels L t rs (pos + sliceLen rt.length L t.length)
            with ⟨out1, p1⟩ | ⟨out1, bad1⟩ <;> rw [hrec] at h
          · exact absurd h (by simp)
          · simp only [Sum.inr.injEq, Prod.mk.injEq] at h
            obtain ⟨h1, n, h2⟩ := ih out1 bad1 hrec
            refine ⟨h.2 ▸ h1, sliceLen rt.length L t.length + n, ?_⟩
            rw [← h.1, joinNew, List.map_cons, List.flatten_cons, List.take_add,
              List.drop_drop]
            exact congrArg _ (h2 ▸ rfl)
        · rw [if_neg hm] at h
          simp only [Sum.inr.injEq, Prod.mk.injEq] at h
          refine ⟨h.2 ▸ hm, sliceLen rt.length L t.length, ?_⟩
          rw [← h.1, joinNew]
          simp

/-- When every captured hyperlink id resolves, the loop succeeds. -/
theorem runLoop_resolves (rels : List String) (L : Nat) (t : List Char) :
    ∀ (rs : List Run) (pos : Nat), linksResolve rels rs = true →
      runLoop rels L t rs pos = .inl (specRuns t L rs pos, pos + totalSlices rs t L)
  | [], pos, _ => by simp [runLoop, specRuns, totalSlices]
  | ⟨rt, rsty, rlink⟩ :: rs, pos, hres => by
    rw [linksResolve, List.all_cons, Bool.and_eq_true] at hres
    have hres' : linksResolve rels rs = true := hres.2
    have ih := runLoop_resolves rels L t rs (pos + sliceLen rt.length L t.length) hres'
    cases rlink with
    | none =>
      simp only [runLoop, ih]
      by_cases hs : ((t.drop pos).take (sliceLen rt.length L t.length)).isEmpty <;>
        simp only [hs, Bool.false_eq_true, reduceIte, Sum.inl.injEq, Prod.mk.injEq,
          specRuns, totalSlices, List.map_cons, List.sum_cons, List.nil_append,
          List.singleton_append, List.cons.injEq, true_and] <;>
        omega
    | some rId =>
      have hm : rId ∈ rels := by
        have := hres.1
        simp only [Option.all_some] at this
        simpa using this
      simp only [runLoop, ih, hm, reduceIte]
      by_cases hs : ((t.drop pos).take (sliceLen rt.length L t.length)).isEmpty <;>
        simp only [hs, Bool.false_eq_true, reduceIte, Sum.inl.injEq, Prod.mk.injEq,
          specRuns, totalSlices, List.map_cons, List.sum_cons, List.nil_append,
          List.singleton_append, List.cons.injEq, true_and] <;>
        omega

theorem joinNew_specRuns (t : List Char) (L : Nat) (rs : List Run) (pos : Nat) :
    joinNew (specRuns t L rs pos) = (t.drop pos).take (totalSlices rs t L) := by
  rw [joinNew, specRuns_map_text, List.flatten_filter_not_isEmpty]
  exact specSlices_flatten t L rs pos

/-- Full characterisation of a successful `_update_paragraph_text` when the
original runs carry any text at all. -/
theorem updateParagraphText_ok (rels : List String) (runs : List Run) (t : List Char)
    (out : List Run) (hL : 0 < (joinTexts runs).length)
    (h : updateParagraphText rels runs t = .ok out) :
    out = specRuns t (joinTexts runs).length runs 0 ++
      (if totalSlices runs t (joinTexts runs).length < t.length then
        [⟨t.drop (totalSlices runs t (joinTexts runs).length), lastStyle runs, none⟩]
      else []) := by
  rw [updateParagraphText, if_neg (by omega)] at h
  rcases hrec : runLoop rels (joinTexts runs).length t runs 0 with ⟨out1, p1⟩ | ⟨out1, bad1⟩ <;>
    rw [hrec] at h <;> simp only [] at h
  · obtain ⟨h1, h2⟩ := runLoop_inl _ _ _ _ _ _ _ hrec
    have hp : p1 = totalSlices runs t (joinTexts runs).length := by omega
    subst hp
    by_cases hrem : totalSlices runs t (joinTexts runs).length < t.length
    · rw [if_pos hrem] at h
      cases h
      rw [if_pos hrem, h1]
    · rw [if_neg hrem] at h
      cases h
      rw [if_neg hrem, h1, List.append_nil]
  · cases h

/-! ## Walker lemmas: trace, counter and traversal order -/

theorem processParas_spec (rels : List String) (gen : Gen) :
    ∀ (ps : List Paragraph) (idx : Nat),
      (processParas rels gen ps idx).2 =
        (idx + countParas ps, (flattenParas ps).map strippedText) := by
  intro ps
  induction ps with
  | nil => intro idx; simp [processParas, countParas, flattenParas]
  | cons p ps ih =>
    intro idx
    by_cases hb : (strippedText p).isEmpty
    · rcases h : processParas rels gen ps idx with ⟨qs, rest⟩
      have hspec := ih idx
      rw [h] at hspec
      simp only [processParas, hb, reduceIte, h]
      simpa [countParas, flattenParas, List.countP_cons, List.filter_cons, hb]
        using hspec
    · rcases h : processParas rels gen ps (idx + 1) with ⟨qs, idx2, tr⟩
      have hspec := ih (idx + 1)
      rw [h] at hspec
      simp only [Prod.mk.injEq] at hspec
      simp only [processParas, hb, reduceIte, h, Prod.mk.injEq]
      rw [if_neg (by simp)]
      simp only [Prod.mk.injEq]
      obtain ⟨h1, h2⟩ := hspec
      refine ⟨?_, ?_⟩
      · simp only [countParas, List.countP_cons, hb]
        simp only [countParas] at h1
        simp
        omega
      · simp [flattenParas, List.filter_cons, hb, h2]

mutual
theorem processTable_spec (rels : List String) (gen : Gen) :
    ∀ (x : Table) (idx : Nat),
      (processTable rels gen x idx).2 =
        (idx + countTable x, (flattenTable x).map strippedText)
  | .mk rows, idx => by
    rcases h : processRowList rels gen rows idx with ⟨rows2, rest⟩
    have hs := processRowList_spec rels gen rows idx
    rw [h] at hs
    simpa [processTable, h, countTable, flattenTable] using hs
theorem processRowList_spec (rels : List String) (gen : Gen) :
    ∀ (x : RowList) (idx : Nat),
      (processRowList rels gen x idx).2 =
        (idx + countRowList x, (flattenRowList x).map strippedText)
  | .nil, idx => by simp [processRowList, countRowList, flattenRowList]
  | .cons row rest, idx => by
    rcases h1 : processCellList rels gen row idx with ⟨row2, idx1, tr1⟩
    have s1 := processCellList_spec rels gen row idx
    rw [h1] at s1
    simp only [Prod.mk.injEq] at s1
    rcases h2 : processRowList rels gen rest idx1 with ⟨rest2, idx2, tr2⟩
    have s2 := processRowList_spec rels gen rest idx1
    rw [h2] at s2
    simp only [Prod.mk.injEq] at s2
    simp only [processRowList, h1, h2, countRowList, flattenRowList, List.map_append,
      Prod.mk.injEq]
    exact ⟨by omega, by rw [s1.2, s2.2]⟩
theorem processCellList_spec (rels : List String) (gen : Gen) :
    ∀ (x : CellList) (idx : Nat),
      (processCellList rels gen x idx).2 =
        (idx + countCellList x, (flattenCellList x).map strippedText)
  | .nil, idx => by simp [processCellList, countCellList, flattenCellList]
  | .cons c rest, idx => by
    rcases h1 : processCell rels gen c idx with ⟨c2, idx1, tr1⟩
    have s1 := processCell_spec rels gen c idx
    rw [h1] at s1
    simp only [Prod.mk.injEq] at s1
    rcases h2 : processCellList rels gen rest idx1 with ⟨rest2, idx2, tr2⟩
    have s2 := processCellList_spec rels gen rest idx1
    rw [h2] at s2
    simp only [Prod.mk.injEq] at s2
    simp only [processCellList, h1, h2, countCellList, flattenCellList, List.map_append,
      Prod.mk.injEq]
    exact ⟨by omega, by rw [s1.2, s2.2]⟩
theorem processCell_spec (rels : List String) (gen : Gen) :
    ∀ (x : Cell) (idx : Nat),
      (processCell rels gen x idx).2 =
        (idx + countCell x, (flattenCell x).map strippedText)
  | .mk paras tables, idx => by
    rcases h1 : processParas rels gen paras idx with ⟨ps2, idx1, tr1⟩
    have s1 := processParas_spec rels gen paras idx
    rw [h1] at s1
    simp only [Prod.mk.injEq] at s1
    rcases h2 : processTableList rels gen tables idx1 with ⟨ts2, idx2, tr2⟩
    have s2 := processTableList_spec rels gen tables idx1
    rw [h2] at s2
    simp only [Prod.mk.injEq] at s2
    simp only [processCell, h1, h2, countCell, flattenCell, List.map_append,
      Prod.mk.injEq]
    exact ⟨by omega, by rw [s1.2, s2.2]⟩
theorem processTableList_spec (rels : List String) (gen : Gen) :
    ∀ (x : TableList) (idx : Nat),
      (processTableList rels gen x idx).2 =
        (idx + countTableList x, (flattenTableList x).map strippedText)
  | .nil, idx => by simp [processTableList, countTableList, flattenTableList]
  | .cons t rest, idx => by
    rcases h1 : processTable rels gen t idx with ⟨t2, idx1, tr1⟩
    have s1 := processTable_spec rels gen t idx
    rw [h1] at s1
    simp only [Prod.mk.injEq] at s1
    rcases h2 : processTableList rels gen rest idx1 with ⟨rest2, idx2, tr2⟩
    have s2 := processTableList_spec rels gen rest idx1
    rw [h2] at s2
    simp only [Prod.mk.injEq] at s2
    simp only [processTableList, h1, h2, countTableList, flattenTableList,
      List.map_append, Prod.mk.injEq]
    exact ⟨by omega, by rw [s1.2, s2.2]⟩
end

theorem countParas_flatten (ps : List Paragraph) :
    countParas ps = (flattenParas ps).length := by
  simp [countParas, flattenParas, List.countP_eq_length_filter]

mutual
theorem countTable_flatten : ∀ x : Table, countTable x = (flattenTable x).length
  | .mk rows => by
    simp [countTable, flattenTable, countRowList_flatten rows]
theorem countRowList_flatten : ∀ x : RowList, countRowList x = (flattenRowList x).length
  | .nil => by simp [countRowList, flattenRowList]
  | .cons row rest => by
    simp [countRowList, flattenRowList, countCellList_flatten row,
      countRowList_flatten rest]
theorem countCellList_flatten : ∀ x : CellList, countCellList x = (flattenCellList x).length
  | .nil => by simp [countCellList, flattenCellList]
  | .cons c rest => by
    simp [countCellList, flattenCellList, countCell_flatten c,
      countCellList_flatten rest]
theorem countCell_flatten : ∀ x : Cell, countCell x = (flattenCell x).length
  | .mk paras tables => by
    simp [countCell, flattenCell, countParas_flatten paras,
      countTableList_flatten tables]
theorem countTableList_flatten : ∀ x : TableList, countTableList x = (flattenTableList x).length
  | .nil => by simp [countTableList, flattenTableList]
  | .cons t rest => by
    simp [countTableList, flattenTableList, countTable_flatten t,
      countTableList_flatten rest]
end

/-- The trace of the whole pass is the specification-side section order. -/
theorem process_document_trace (rels : List String) (gen : Gen) (d : Document) :
    (process_document rels gen d).2.2 = (docSections d).map strippedText := by
  rcases h1 : processParas rels gen d.paras 0 with ⟨ps, i1, t1⟩
  have s1 := processParas_spec rels gen d.paras 0
  rw [h1] at s1
  simp only [Prod.mk.injEq] at s1
  rcases h2 : processTableList rels gen d.tables i1 with ⟨ts, i2, t2⟩
  have s2 := processTableList_spec rels gen d.tables i1
  rw [h2] at s2
  simp only [Prod.mk.injEq] at s2
  simp [process_document, h1, h2, docSections, s1.2, s2.2]

/-- Shared length fact: for every document and every generator, the trace
of generator calls has exactly `_count_sections` entries. -/
theorem trace_length_eq (rels : List String) (gen : Gen) (d : Document) :
    ((process_document rels gen d).2.2).length = count_sections d := by
  rw [process_document_trace, List.length_map, docSections, List.length_append,
    count_sections, countParas_flatten, countTableList_flatten]

/-! ## Example data used in closed theorems -/

/-- A style snapshot with nothing set. -/
def noStyle : RunStyle := ⟨none, none, none, none, none, none, none⟩

/-- A fully populated style snapshot. -/
def exStyle : RunStyle := ⟨some "Normal", some true, some false, none, some "Arial", some 12, some 255⟩

/-- A second, distinct style snapshot. -/
def exStyle2 : RunStyle := ⟨some "Emphasis", some false, some true, some true, some "Times", some 11, some 0⟩

/-- A paragraph format with nothing set. -/
def fmtNone : ParagraphFormat :=
  ⟨none, none, none, none, none, none, none, none, none, none, none, none⟩

/-- A fully populated paragraph format. -/
def fmtEx : ParagraphFormat :=
  ⟨some 10, some 20, some 5, some 6, some 2, some 1, some 3, some 7,
   some true, some false, some true, some false⟩

/-- A concrete non-blank paragraph. -/
def pEx : Paragraph := ⟨[⟨['h', 'i'], exStyle, none⟩], some "Body", some 0, fmtEx⟩

/-- The two-run paragraph of the round-trip example (lengths 6 and 5). -/
def hwRuns : List Run := [⟨"Hello ".toList, exStyle, none⟩, ⟨"World".toList, exStyle2, none⟩]

/-- The 15-character replacement text of the round-trip example. -/
def hiText : List Char := "Hi there friend".toList

/-- Two runs, the first carrying a hyperlink. -/
def linkRuns : List Run := [⟨['a', 'b'], exStyle, some "rId3"⟩, ⟨['c', 'd'], exStyle2, none⟩]

/-- A one-paragraph document whose single run carries a hyperlink id that
resolves nowhere. -/
def staleDoc : Document :=
  ⟨[⟨[⟨['a', 'b'], exStyle, some "r9"⟩], some "Body", some 0, fmtEx⟩], .nil⟩

/-! ## Claims -/

/-- C1 (amended): redistribution is content-preserving whenever the original
runs carry at least one character and `_update_paragraph_text` returns
without raising: the concatenation of the texts written into the new runs is
exactly `new_text`.  When the original run lengths are all zero the function
instead returns right after clearing the paragraph and `new_text` is
dropped, not emitted (see the counterexample). -/
theorem content_preserved_of_ok (rels : List String) (runs : List Run) (t : List Char)
    (out : List Run) (hL : 0 < (joinTexts runs).length)
    (h : updateParagraphText rels runs t = .ok out) :
    joinNew out = t := by
  rw [updateParagraphText_ok rels runs t out hL h]
  by_cases hrem : totalSlices runs t (joinTexts runs).length < t.length
  · rw [if_pos hrem, joinNew, List.map_append, List.flatten_append, ← joinNew,
      joinNew_specRuns, List.drop_zero]
    simp [joinNew, List.take_append_drop _ t]
  · rw [if_neg hrem, List.append_nil, joinNew_specRuns, List.drop_zero]
    exact List.take_of_length_le (by omega)

/-- C1 counterexample: with a single empty original run (an all-zero length
sequence) and `new_text = "x"`, `_update_paragraph_text` rebuilds no runs at
all: the text is silently dropped rather than emitted in a synthetic
trailing slot. -/
theorem all_empty_runs_drop_text :
    updateParagraphText [] [⟨[], noStyle, none⟩] ['x'] = .ok [] ∧
    joinNew (resultRuns (updateParagraphText [] [⟨[], noStyle, none⟩] ['x'])) ≠ ['x'] :=
  ⟨by decide, by decide⟩

/-- Witness for C1 (amended) at a concrete input. -/
theorem content_preserved_witness :
    joinNew [⟨['x', 'y', 'z'], exStyle, none⟩] = ['x', 'y', 'z'] :=
  content_preserved_of_ok [] [⟨['a', 'b'], exStyle, none⟩] ['x', 'y', 'z']
    [⟨['x', 'y', 'z'], exStyle, none⟩] (by decide) (by decide)

/-- C2: `_count_sections` returns exactly the number of `optimize_section`
invocations the walker performs, for every document, generator behaviour and
relationship set, because counting and visiting apply the identical
blank-skip rule. -/
theorem count_sections_eq_visits (rels : List String) (gen : Gen) (d : Document) :
    count_sections d = ((process_document rels gen d).2.2).length :=
  (trace_length_eq rels gen d).symm

/-- C3 (amended): the walker catches a per-section exception and continues —
every section of every document is still visited, whatever the generator
does — and when the exception comes from the generator call itself (i.e.
before `_update_paragraph_text` mutates anything) the paragraph is left
exactly as it was.  An exception raised *during* the rewrite does not
restore the original content (see the counterexample). -/
theorem failure_isolation :
    (∀ (rels : List String) (gen : Gen) (idx : Nat) (p : Paragraph),
        gen idx (strippedText p) = none → processParagraph rels gen idx p = p) ∧
    (∀ (rels : List String) (gen : Gen) (d : Document),
        ((process_document rels gen d).2.2).length = count_sections d) := by
  constructor
  · intro rels gen idx p h
    simp [processParagraph, h]
  · intro rels gen d
    exact trace_length_eq rels gen d

/-- C3 counterexample: a section whose rewrite raises on a stale hyperlink
is *not* left with its original text and runs: the paragraph was already
cleared and partially rebuilt, and the handler keeps that partial state
("ab" became "xy" with the hyperlink gone) while the pass continues. -/
theorem stale_link_not_restored :
    (process_document [] (fun _ _ => some ['x', 'y']) staleDoc).1.paras.map paraText
      = [['x', 'y']] ∧
    staleDoc.paras.map paraText = [['a', 'b']] ∧
    ([['x', 'y']] : List (List Char)) ≠ [['a', 'b']] :=
  ⟨by decide, by decide, by decide⟩

/-- Witness for C3 (amended) at a concrete input. -/
theorem failure_isolation_witness :
    processParagraph [] (fun _ _ => none) 3 pEx = pEx :=
  failure_isolation.1 [] (fun _ _ => none) 3 pEx rfl

/-- C4 (amended): an unresolvable hyperlink id makes `_add_hyperlink` raise
`KeyError`, which aborts the remainder of that paragraph's rewrite: the id
recorded by the failure indeed resolves nowhere, and only an initial
segment of `new_text` has been written.  The per-section handler then lets
the walker continue: the next paragraphs are still processed. -/
theorem stale_link_aborts_section :
    (∀ (rels : List String) (runs : List Run) (t : List Char) (out : List Run)
        (bad : String),
        updateParagraphText rels runs t = .failed out bad →
        ¬ bad ∈ rels ∧ ∃ n, joinNew out = t.take n) ∧
    (∀ (rels : List String) (gen : Gen) (idx : Nat) (p : Paragraph) (ps : List Paragraph),
        (strippedText p).isEmpty = false →
        (processParas rels gen (p :: ps) idx).1 =
          processParagraph rels gen (idx + 1) p :: (processParas rels gen ps (idx + 1)).1) := by
  constructor
  · intro rels runs t out bad h
    rw [updateParagraphText] at h
    by_cases hL : (joinTexts runs).length = 0
    · rw [if_pos hL] at h; cases h
    · rw [if_neg hL] at h
      rcases hrec : runLoop rels (joinTexts runs).length t runs 0
        with ⟨out1, p1⟩ | ⟨out1, bad1⟩ <;> rw [hrec] at h <;> simp only [] at h
      · split at h <;> cases h
      · simp only [UpdateResult.failed.injEq] at h
        obtain ⟨hbad, n, hn⟩ := runLoop_inr _ _ _ _ _ _ _ hrec
        exact ⟨h.2 ▸ hbad, n, by rw [← h.1, hn, List.drop_zero]⟩
  · intro rels gen idx p ps hb
    rcases hrec : processParas rels gen ps (idx + 1) with ⟨qs, idx2, tr⟩
    simp [processParas, hb, hrec]

/-- C4 counterexample: with runs "ab" (stale hyperlink "r9") and "cd", and
`new_text = "wxyz"`, the rewrite stops inside the first run: only "wx" is
written, the second run's share "yz" never is — the rewrite of the section
does not complete, contradicting skip-and-continue. -/
theorem stale_link_partial_write :
    updateParagraphText [] [⟨['a', 'b'], exStyle, some "r9"⟩, ⟨['c', 'd'], exStyle2, none⟩]
        ['w', 'x', 'y', 'z'] = .failed [⟨['w', 'x'], exStyle, none⟩] "r9" ∧
    joinNew [⟨['w', 'x'], exStyle, none⟩] ≠ ['w', 'x', 'y', 'z'] :=
  ⟨by decide, by decide⟩

/-- Witness for C4 (amended) at a concrete input. -/
theorem stale_link_aborts_section_witness :
    ¬ "r9" ∈ ([] : List String) ∧
    ∃ n, joinNew [⟨['w', 'x'], exStyle, none⟩] = (['w', 'x', 'y', 'z'] : List Char).take n :=
  stale_link_aborts_section.1 []
    [⟨['a', 'b'], exStyle, some "r9"⟩, ⟨['c', 'd'], exStyle2, none⟩]
    ['w', 'x', 'y', 'z'] [⟨['w', 'x'], exStyle, none⟩] "r9" (by decide)

/-- C5 (amended): after the proportional pass, leftover characters are
emitted as one *additional* trailing run carrying the last snapshot's style
attributes and no hyperlink — they are not appended to the last produced
run.  (For run lengths [6, 5] and a 15-character text this yields three runs
of lengths 8, 6, 1, not two runs of lengths 8 and 7; see the
counterexample.) -/
theorem leftover_extra_run (rels : List String) (runs : List Run) (t : List Char)
    (out : List Run) (hL : 0 < (joinTexts runs).length)
    (h : updateParagraphText rels runs t = .ok out)
    (hrem : totalSlices runs t (joinTexts runs).length < t.length) :
    out = specRuns t (joinTexts runs).length runs 0 ++
      [⟨t.drop (totalSlices runs t (joinTexts runs).length), lastStyle runs, none⟩] := by
  rw [updateParagraphText_ok rels runs t out hL h, if_pos hrem]

/-- C5 counterexample: for original lengths [6, 5] and
`new_text = "Hi there friend"` the code produces three runs of lengths
8, 6 and 1 — an extra run holds the remainder — not the claimed two runs of
lengths 8 and 7. -/
theorem roundtrip_not_two_runs :
    (resultRuns (updateParagraphText [] hwRuns hiText)).map (fun r => r.text.length)
      = [8, 6, 1] ∧
    (resultRuns (updateParagraphText [] hwRuns hiText)).map (fun r => r.text.length)
      ≠ [8, 7] :=
  ⟨by decide, by decide⟩

/-- Witness for C5 (amended) at the round-trip input. -/
theorem leftover_extra_run_witness :
    resultRuns (updateParagraphText [] hwRuns hiText) =
      specRuns hiText (joinTexts hwRuns).length hwRuns 0 ++
        [⟨hiText.drop (totalSlices hwRuns hiText (joinTexts hwRuns).length),
          lastStyle hwRuns, none⟩] :=
  leftover_extra_run [] hwRuns hiText (resultRuns (updateParagraphText [] hwRuns hiText))
    (by decide) (by decide) (by decide)

/-- C6 (amended): on a successful rewrite with positive total run length,
the texts of the produced runs are exactly the non-empty members of the
slice sequence, where the i-th slice is taken at the cursor (the sum of all
previous computed lengths, advanced also for empty slices) and has the
*double-precision* length `sliceLen r_i L n = int(float(r_i / L) * float(n))`
— which usually, but not always, equals ⌊r_i·n/L⌋ (see the counterexample)
— followed by the remainder slice if the cursor stopped short of the end. -/
theorem slices_at_cursor (rels : List String) (runs : List Run) (t : List Char)
    (out : List Run) (hL : 0 < (joinTexts runs).length)
    (h : updateParagraphText rels runs t = .ok out) :
    out.map (·.text) =
      (specSlices t (joinTexts runs).length runs 0).filter (fun s => !s.isEmpty) ++
      (if totalSlices runs t (joinTexts runs).length < t.length then
        [t.drop (totalSlices runs t (joinTexts runs).length)] else []) := by
  rw [updateParagraphText_ok rels runs t out hL h, List.map_append]
  congr 1
  · exact specRuns_map_text t (joinTexts runs).length runs 0
  · by_cases hrem : totalSlices runs t (joinTexts runs).length < t.length <;> simp [hrem]

/-- C6 counterexample: the slice width is *not* `⌊r_i / L * len(new_text)⌋`
computed exactly: the code computes it in IEEE doubles, and for
`r = 1, L = 49, n = 49` the double product `(1/49)*49` is strictly below 1,
so the code assigns 0 characters although the exact floor is 1. -/
theorem sliceLen_not_exact_floor :
    sliceLen 1 49 49 = 0 ∧ (⌊(1 : ℚ) / 49 * 49⌋ : ℤ) = 1 :=
  ⟨by decide, by norm_num⟩

/-- Witness for C6 (amended) at the round-trip input. -/
theorem slices_at_cursor_witness :
    (resultRuns (updateParagraphText [] hwRuns hiText)).map (·.text) =
      (specSlices hiText (joinTexts hwRuns).length hwRuns 0).filter (fun s => !s.isEmpty) ++
      (if totalSlices hwRuns hiText (joinTexts hwRuns).length < hiText.length then
        [hiText.drop (totalSlices hwRuns hiText (joinTexts hwRuns).length)] else []) :=
  slices_at_cursor [] hwRuns hiText (resultRuns (updateParagraphText [] hwRuns hiText))
    (by decide) (by decide)

/-- C7: when every captured hyperlink id resolves, `_update_paragraph_text`
succeeds and returns exactly the specification-side run list `specUpdate`:
every snapshot with a non-empty slice yields a run carrying that slice, a
copy of all captured style attributes (named style, bold, italic, underline,
font name, size, color), and the snapshot's own hyperlink id re-attached;
the remainder run, if any, carries the last snapshot's attributes. -/
theorem styles_and_links_copied (rels : List String) (runs : List Run) (t : List Char)
    (hres : linksResolve rels runs = true) :
    updateParagraphText rels runs t = .ok (specUpdate runs t) := by
  rw [updateParagraphText, specUpdate]
  by_cases hL : (joinTexts runs).length = 0
  · rw [if_pos hL, if_pos hL]
  · rw [if_neg hL, if_neg hL, runLoop_resolves rels _ t runs 0 hres]
    simp only []
    by_cases hrem : totalSlices runs t (joinTexts runs).length < t.length <;>
      simp [hrem]

/-- Witness for C7 at a concrete two-style input with a live hyperlink. -/
theorem styles_and_links_copied_witness :
    updateParagraphText ["rId3"] linkRuns ['w', 'x', 'y', 'z'] =
      .ok (specUpdate linkRuns ['w', 'x', 'y', 'z']) :=
  styles_and_links_copied ["rId3"] linkRuns ['w', 'x', 'y', 'z'] (by decide)

/-- C8: frame condition on the paragraph format: when the generator
returned and the rewrite succeeded, every one of the twelve paragraph-level
format fields reapplied by `_copy_paragraph_format` has the same value after
processing as before. -/
theorem paragraph_format_preserved (rels : List String) (gen : Gen) (idx : Nat)
    (p : Paragraph) (adjusted : List Char) (rs : List Run)
    (hgen : gen idx (strippedText p) = some adjusted)
    (hok : updateParagraphText rels p.runs adjusted = .ok rs) :
    (processParagraph rels gen idx p).fmt.left_indent = p.fmt.left_indent ∧
    (processParagraph rels gen idx p).fmt.right_indent = p.fmt.right_indent ∧
    (processParagraph rels gen idx p).fmt.space_before = p.fmt.space_before ∧
    (processParagraph rels gen idx p).fmt.space_after = p.fmt.space_after ∧
    (processParagraph rels gen idx p).fmt.line_spacing = p.fmt.line_spacing ∧
    (processParagraph rels gen idx p).fmt.line_spacing_rule = p.fmt.line_spacing_rule ∧
    (processParagraph rels gen idx p).fmt.alignment = p.fmt.alignment ∧
    (processParagraph rels gen idx p).fmt.first_line_indent = p.fmt.first_line_indent ∧
    (processParagraph rels gen idx p).fmt.keep_together = p.fmt.keep_together ∧
    (processParagraph rels gen idx p).fmt.keep_with_next = p.fmt.keep_with_next ∧
    (processParagraph rels gen idx p).fmt.page_break_before = p.fmt.page_break_before ∧
    (processParagraph rels gen idx p).fmt.widow_control = p.fmt.widow_control := by
  simp [processParagraph, hgen, hok, copy_paragraph_format]

/-- Witness for C8 at a concrete input with every format field populated. -/
theorem paragraph_format_preserved_witness :
    (processParagraph [] (fun _ _ => some ['z']) 1 pEx).fmt.left_indent = pEx.fmt.left_indent ∧
    (processParagraph [] (fun _ _ => some ['z']) 1 pEx).fmt.right_indent = pEx.fmt.right_indent ∧
    (processParagraph [] (fun _ _ => some ['z']) 1 pEx).fmt.space_before = pEx.fmt.space_before ∧
    (processParagraph [] (fun _ _ => some ['z']) 1 pEx).fmt.space_after = pEx.fmt.space_after ∧
    (processParagraph [] (fun _ _ => some ['z']) 1 pEx).fmt.line_spacing = pEx.fmt.line_spacing ∧
    (processParagraph [] (fun _ _ => some ['z']) 1 pEx).fmt.line_spacing_rule = pEx.fmt.line_spacing_rule ∧
    (processParagraph [] (fun _ _ => some ['z']) 1 pEx).fmt.alignment = pEx.fmt.alignment ∧
    (processParagraph [] (fun _ _ => some ['z']) 1 pEx).fmt.first_line_indent = pEx.fmt.first_line_indent ∧
    (processParagraph [] (fun _ _ => some ['z']) 1 pEx).fmt.keep_together = pEx.fmt.keep_together ∧
    (processParagraph [] (fun _ _ => some ['z']) 1 pEx).fmt.keep_with_next = pEx.fmt.keep_with_next ∧
    (processParagraph [] (fun _ _ => some ['z']) 1 pEx).fmt.page_break_before = pEx.fmt.page_break_before ∧
    (processParagraph [] (fun _ _ => some ['z']) 1 pEx).fmt.widow_control = pEx.fmt.widow_control :=
  paragraph_format_preserved [] (fun _ _ => some ['z']) 1 pEx ['z']
    [⟨['z'], exStyle, none⟩] rfl (by decide)

/-- C9: for every document (and every generator behaviour), the walker's
visit sequence is exactly the specification-side order `docSections`: all
non-blank top-level paragraphs in document order, then the tables in order,
each row-major, visiting a cell's own paragraphs before its nested tables,
depth first — so every nested non-blank paragraph is visited exactly once,
in that position. -/
theorem traversal_order (rels : List String) (gen : Gen) (d : Document) :
    (process_document rels gen d).2.2 = (docSections d).map strippedText :=
  process_document_trace rels gen d

/-! ## Properties of the float model (used for the length cap) -/

theorem log2F_spec : ∀ (fuel n : Nat), 1 ≤ n → n < 2 ^ fuel →
    2 ^ (log2F fuel n) ≤ n ∧ n < 2 ^ (log2F fuel n + 1)
  | 0, n, h1, h2 => by simp at h2; omega
  | fuel + 1, n, h1, h2 => by
    by_cases hle : n ≤ 1
    · have hn1 : n = 1 := by omega
      subst hn1
      simp [log2F]
    · simp only [log2F, if_neg hle]
      have hd1 : 1 ≤ n / 2 := by omega
      have hd2 : n / 2 < 2 ^ fuel := by
        have hp : (2:Nat) ^ (fuel + 1) = 2 * 2 ^ fuel := by rw [pow_succ]; ring
        omega
      obtain ⟨ihl, ihr⟩ := log2F_spec fuel (n / 2) hd1 hd2
      constructor
      · rw [pow_succ]
        omega
      · rw [pow_succ, pow_succ]
        omega

theorem natLog2_spec (n : Nat) (h1 : 1 ≤ n) (h2 : n < 2 ^ 320) :
    2 ^ (natLog2 n) ≤ n ∧ n < 2 ^ (natLog2 n + 1) :=
  log2F_spec 320 n h1 h2

theorem q2pos (e : Int) : (0:ℚ) < 2 ^ e := by positivity

theorem npow_cast_q (k : Nat) : ((2 ^ k : Nat) : ℚ) = (2:ℚ) ^ (k : Int) := by
  push_cast
  rw [zpow_natCast]

theorem cast_pow_toNat (e : Int) (he : 0 ≤ e) :
    ((2 ^ e.toNat : Nat) : ℚ) = (2:ℚ) ^ e := by
  rw [npow_cast_q, Int.toNat_of_nonneg he]

theorem ltPow2_iff (a b : Nat) (hb : 1 ≤ b) (k : Int) :
    ltPow2 a b k = true ↔ (a : ℚ) / b < (2:ℚ) ^ k := by
  have hb0 : (0:ℚ) < b := by exact_mod_cast hb
  rw [ltPow2]
  by_cases hk : 0 ≤ k
  · rw [if_pos hk, decide_eq_true_eq, div_lt_iff hb0]
    have hcast : (2:ℚ) ^ k * b = ((2 ^ k.toNat * b : Nat) : ℚ) := by
      rw [← cast_pow_toNat k hk]
      push_cast
      ring
    rw [hcast, Nat.cast_lt, Nat.mul_comm]
  · rw [if_neg hk, decide_eq_true_eq]
    have hkneg : 0 ≤ -k := by omega
    have hD : (0:ℚ) < ((2 ^ (-k).toNat : Nat) : ℚ) := by positivity
    have hkk : (2:ℚ) ^ k = 1 / ((2 ^ (-k).toNat : Nat) : ℚ) := by
      rw [cast_pow_toNat (-k) hkneg, zpow_neg]
      simp
    rw [hkk, div_lt_div_iff hb0 hD, one_mul, ← Nat.cast_mul, Nat.cast_lt]

theorem floorLog2N_spec (a b : Nat) (ha : 1 ≤ a) (hb : 1 ≤ b)
    (ha' : a < 2 ^ 320) (hb' : b < 2 ^ 320) :
    (2:ℚ) ^ (floorLog2N a b) ≤ (a : ℚ) / b ∧
      (a : ℚ) / b < (2:ℚ) ^ (floorLog2N a b + 1) := by
  obtain ⟨la1, la2⟩ := natLog2_spec a ha ha'
  obtain ⟨lb1, lb2⟩ := natLog2_spec b hb hb'
  have hb0 : (0:ℚ) < b := by exact_mod_cast hb
  have hla2 : (a:ℚ) < (2:ℚ) ^ ((natLog2 a : Int) + 1) := by
    have h := (Nat.cast_lt (α := ℚ)).mpr la2
    rwa [npow_cast_q, Nat.cast_add, Nat.cast_one] at h
  have hla1 : (2:ℚ) ^ ((natLog2 a : Int)) ≤ (a:ℚ) := by
    have h := (Nat.cast_le (α := ℚ)).mpr la1
    rwa [npow_cast_q] at h
  have hlb2 : (b:ℚ) < (2:ℚ) ^ ((natLog2 b : Int) + 1) := by
    have h := (Nat.cast_lt (α := ℚ)).mpr lb2
    rwa [npow_cast_q, Nat.cast_add, Nat.cast_one] at h
  have hlb1 : (2:ℚ) ^ ((natLog2 b : Int)) ≤ (b:ℚ) := by
    have h := (Nat.cast_le (α := ℚ)).mpr lb1
    rwa [npow_cast_q] at h
  set k0 : Int := (natLog2 a : Int) - natLog2 b with hk0
  have key_hi : (a:ℚ) / b < (2:ℚ) ^ (k0 + 1) := by
    rw [div_lt_iff hb0]
    calc (a:ℚ) < (2:ℚ) ^ ((natLog2 a : Int) + 1) := hla2
      _ = (2:ℚ) ^ (k0 + 1) * (2:ℚ) ^ ((natLog2 b : Int)) := by
          rw [← zpow_add₀ (by norm_num : (2:ℚ) ≠ 0)]
          congr 1
          omega
      _ ≤ (2:ℚ) ^ (k0 + 1) * b :=
          mul_le_mul_of_nonneg_left hlb1 (le_of_lt (q2pos _))
  have key_lo : (2:ℚ) ^ (k0 - 1) < (a:ℚ) / b := by
    rw [lt_div_iff hb0]
    calc (2:ℚ) ^ (k0 - 1) * b < (2:ℚ) ^ (k0 - 1) * (2:ℚ) ^ ((natLog2 b : Int) + 1) :=
          mul_lt_mul_of_pos_left hlb2 (q2pos _)
      _ = (2:ℚ) ^ ((natLog2 a : Int)) := by
          rw [← zpow_add₀ (by norm_num : (2:ℚ) ≠ 0)]
          congr 1
          omega
      _ ≤ (a:ℚ) := hla1
  rw [floorLog2N]
  by_cases h1 : ltPow2 a b k0 = true
  · simp only [← hk0, h1, if_pos]
    refine ⟨le_of_lt ?_, ?_⟩
    · exact key_lo
    · have := (ltPow2_iff a b hb k0).mp h1
      rwa [show k0 - 1 + 1 = k0 by omega]
  · by_cases h2 : ltPow2 a b (k0 + 1) = true
    · simp only [← hk0, h1, h2, if_pos, Bool.false_eq_true, if_neg, if_false]
      refine ⟨?_, (ltPow2_iff a b hb (k0 + 1)).mp h2⟩
      have := (ltPow2_iff a b hb k0).not.mp (by simp [h1])
      push_neg at this
      exact this
    · exact absurd ((ltPow2_iff a b hb (k0 + 1)).mpr key_hi) (by simp [h2])

theorem rne_err (nn d : Nat) (hd : 1 ≤ d) :
    (nn : ℚ)/d - 1/2 ≤ (rne nn d : ℚ) ∧ (rne nn d : ℚ) ≤ (nn : ℚ)/d + 1/2 := by
  have hd0 : (0:ℚ) < d := by exact_mod_cast hd
  have hq : (d * (nn / d) + nn % d : ℕ) = nn := Nat.div_add_mod nn d
  have hq' : (nn:ℚ) = (d:ℚ) * ((nn / d : ℕ) : ℚ) + ((nn % d : ℕ) : ℚ) := by
    exact_mod_cast hq.symm
  have heq : (nn:ℚ)/d = ((nn / d : ℕ) : ℚ) + ((nn % d : ℕ) : ℚ)/d := by
    rw [hq']
    field_simp
    ring
  have hrpos : (0:ℚ) ≤ ((nn % d : ℕ) : ℚ)/d := by positivity
  have hrlt : ((nn % d : ℕ) : ℚ)/d < 1 := by
    rw [div_lt_one hd0, Nat.cast_lt]
    exact Nat.mod_lt _ (by omega)
  by_cases h1 : 2 * (nn % d) < d
  · have hv : rne nn d = nn / d := by simp [rne, h1]
    have hr2 : ((nn % d : ℕ) : ℚ)/d ≤ 1/2 := by
      rw [div_le_div_iff hd0 (by norm_num : (0:ℚ) < 2)]
      have hc : ((2 * (nn % d) : ℕ) : ℚ) ≤ (d:ℚ) := by
        rw [Nat.cast_le]
        omega
      push_cast at hc
      linarith
    rw [hv]
    constructor <;> linarith
  · by_cases h2 : d < 2 * (nn % d)
    · have hv : rne nn d = nn / d + 1 := by simp [rne, h1, h2]
      have hr2 : (1:ℚ)/2 ≤ ((nn % d : ℕ) : ℚ)/d := by
        rw [div_le_div_iff (by norm_num : (0:ℚ) < 2) hd0]
        have hc : (d:ℚ) ≤ ((2 * (nn % d) : ℕ) : ℚ) := by
          rw [Nat.cast_le]
          omega
        push_cast at hc
        linarith
      rw [hv]
      push_cast
      constructor <;> linarith
    · have hhalf : ((nn % d : ℕ) : ℚ)/d = 1/2 := by
        rw [div_eq_div_iff (ne_of_gt hd0) (by norm_num : (2:ℚ) ≠ 0)]
        have hc : ((2 * (nn % d) : ℕ) : ℚ) = (d:ℚ) := by
          rw [Nat.cast_inj]
          omega
        push_cast at hc
        linarith
      by_cases h3 : (nn / d) % 2 = 0
      · have hv : rne nn d = nn / d := by simp [rne, h1, h2, h3]
        rw [hv]
        constructor <;> linarith
      · have hv : rne nn d = nn / d + 1 := by simp [rne, h1, h2, h3]
        rw [hv]
        push_cast
        constructor <;> linarith

theorem roundQ_err (a b : Nat) (ha : 1 ≤ a) (hb : 1 ≤ b)
    (ha' : a < 2 ^ 320) (hb' : b < 2 ^ 320) :
    |Dyadic.toRat (roundQ a b) - (a:ℚ)/b| ≤ ((a:ℚ)/b) * (2:ℚ) ^ (-53 : Int) := by
  obtain ⟨flo, fhi⟩ := floorLog2N_spec a b ha hb ha' hb'
  set f := floorLog2N a b with hf
  have hb0 : (0:ℚ) < b := by exact_mod_cast hb
  have h2ne : (2:ℚ) ≠ 0 := by norm_num
  have h12 : (1:ℚ)/2 = (2:ℚ) ^ (-1 : Int) := by
    rw [zpow_neg, zpow_one]
    norm_num
  have hbound : (2:ℚ) ^ (f - 53) ≤ ((a:ℚ)/b) * (2:ℚ) ^ (-53 : Int) := by
    have h1 : (2:ℚ) ^ (f - 53) = 2 ^ f * (2:ℚ) ^ (-53 : Int) := by
      rw [← zpow_add₀ h2ne]
      congr 1
    rw [h1]
    exact mul_le_mul_of_nonneg_right flo (le_of_lt (q2pos _))
  rw [roundQ, if_neg (by push_neg; omega)]
  simp only [← hf]
  by_cases he : (0:Int) ≤ 52 - f
  · rw [if_pos he]
    have hcast : ((a * 2 ^ (52 - f).toNat : Nat) : ℚ) = (a:ℚ) * (2:ℚ) ^ (52 - f) := by
      rw [Nat.cast_mul, cast_pow_toNat _ he]
    obtain ⟨e1, e2⟩ := rne_err (a * 2 ^ (52 - f).toNat) b hb
    rw [hcast] at e1 e2
    have hscale : (a:ℚ) * (2:ℚ) ^ (52 - f) / b = ((a:ℚ)/b) * (2:ℚ) ^ (52 - f) := by
      ring
    rw [hscale] at e1 e2
    have hc : (0:ℚ) < (2:ℚ) ^ (-(52 - f)) := q2pos _
    have hcancel : (2:ℚ) ^ (52 - f) * (2:ℚ) ^ (-(52 - f)) = 1 := by
      rw [← zpow_add₀ h2ne]
      simp
    have t1 := mul_le_mul_of_nonneg_right e1 (le_of_lt hc)
    have t2 := mul_le_mul_of_nonneg_right e2 (le_of_lt hc)
    have hval : Dyadic.toRat ⟨rne (a * 2 ^ (52 - f).toNat) b, 52 - f⟩ =
        (rne (a * 2 ^ (52 - f).toNat) b : ℚ) * (2:ℚ) ^ (-(52 - f)) := rfl
    rw [hval]
    have hmid : ((a:ℚ)/b) * (2:ℚ) ^ (52 - f) * (2:ℚ) ^ (-(52 - f)) = (a:ℚ)/b := by
      rw [mul_assoc, hcancel, mul_one]
    have hhalf : (1:ℚ)/2 * (2:ℚ) ^ (-(52 - f)) = 2 ^ (f - 53) := by
      rw [h12, ← zpow_add₀ h2ne]
      congr 1
      omega
    rw [abs_le]
    constructor
    · nlinarith [hmid, hhalf, t1, hbound]
    · nlinarith [hmid, hhalf, t2, hbound]
  · rw [if_neg he]
    have hg0 : (0:Int) ≤ -(52 - f) := by omega
    have h2p : 0 < 2 ^ (-(52 - f)).toNat := by positivity
    have hD1 : 1 ≤ b * 2 ^ (-(52 - f)).toNat := by
      calc 1 ≤ b := hb
        _ ≤ b * 2 ^ (-(52 - f)).toNat := Nat.le_mul_of_pos_right _ h2p
    obtain ⟨e1, e2⟩ := rne_err a (b * 2 ^ (-(52 - f)).toNat) hD1
    have hDcast : ((b * 2 ^ (-(52 - f)).toNat : Nat) : ℚ) =
        (b:ℚ) * (2:ℚ) ^ (-(52 - f)) := by
      rw [Nat.cast_mul, cast_pow_toNat _ hg0]
    rw [hDcast] at e1 e2
    have hdiv : (a:ℚ) / ((b:ℚ) * (2:ℚ) ^ (-(52 - f))) =
        ((a:ℚ)/b) * (2:ℚ) ^ (52 - f) := by
      rw [zpow_neg, ← div_eq_mul_inv, div_div_eq_mul_div, div_mul_eq_mul_div]
    rw [hdiv] at e1 e2
    have hc : (0:ℚ) < (2:ℚ) ^ (-(52 - f)) := q2pos _
    have t1 := mul_le_mul_of_nonneg_right e1 (le_of_lt hc)
    have t2 := mul_le_mul_of_nonneg_right e2 (le_of_lt hc)
    have hval : Dyadic.toRat ⟨rne a (b * 2 ^ (-(52 - f)).toNat), 52 - f⟩ =
        (rne a (b * 2 ^ (-(52 - f)).toNat) : ℚ) * (2:ℚ) ^ (-(52 - f)) := rfl
    rw [hval]
    have hcancel : (2:ℚ) ^ (52 - f) * (2:ℚ) ^ (-(52 - f)) = 1 := by
      rw [← zpow_add₀ h2ne]
      simp
    have hmid : ((a:ℚ)/b) * (2:ℚ) ^ (52 - f) * (2:ℚ) ^ (-(52 - f)) = (a:ℚ)/b := by
      rw [mul_assoc, hcancel, mul_one]
    have hhalf : (1:ℚ)/2 * (2:ℚ) ^ (-(52 - f)) = 2 ^ (f - 53) := by
      rw [h12, ← zpow_add₀ h2ne]
      congr 1
      omega
    rw [abs_le]
    constructor
    · nlinarith [hmid, hhalf, t1, hbound]
    · nlinarith [hmid, hhalf, t2, hbound]

theorem rne_one (k : Nat) : rne k 1 = k := by
  simp [rne, Nat.mod_one]

theorem floatOfNat_exact (n : Nat) (h1 : 1 ≤ n) (h2 : n ≤ 2 ^ 48) :
    ∃ en : Int, 4 ≤ en ∧ en ≤ 52 ∧ floatOfNat n = ⟨n * 2 ^ en.toNat, en⟩ ∧
      Dyadic.toRat (floatOfNat n) = n := by
  have hn320 : n < 2 ^ 320 := lt_of_le_of_lt h2 (by norm_num)
  obtain ⟨f1, f2⟩ := floorLog2N_spec n 1 h1 (le_refl 1) hn320 (by norm_num)
  rw [Nat.cast_one, div_one] at f1 f2
  set f := floorLog2N n 1 with hf
  have hcast1 : (1:ℚ) ≤ (n:ℚ) := by exact_mod_cast h1
  have hcast2 : (n:ℚ) ≤ (2:ℚ) ^ (48 : Int) := by
    have h := (Nat.cast_le (α := ℚ)).mpr h2
    rwa [npow_cast_q] at h
  have hf0 : 0 ≤ f := by
    by_contra hc
    push_neg at hc
    have hle : (2:ℚ) ^ (f + 1) ≤ (2:ℚ) ^ (0:Int) :=
      zpow_le_zpow_right₀ (by norm_num) (by omega)
    rw [zpow_zero] at hle
    linarith
  have hf48 : f ≤ 48 := by
    by_contra hc
    push_neg at hc
    have hle : (2:ℚ) ^ (49:Int) ≤ (2:ℚ) ^ f :=
      zpow_le_zpow_right₀ (by norm_num) (by omega)
    have h49 : (2:ℚ) ^ (48:Int) < (2:ℚ) ^ (49:Int) :=
      zpow_lt_zpow_right₀ (by norm_num) (by omega)
    linarith
  have hstruct : floatOfNat n = ⟨n * 2 ^ (52 - f).toNat, 52 - f⟩ := by
    simp only [floatOfNat, roundQ, ← hf]
    rw [if_neg (by push_neg; omega), if_pos (by omega), rne_one]
  refine ⟨52 - f, by omega, by omega, hstruct, ?_⟩
  rw [hstruct]
  have hval : Dyadic.toRat ⟨n * 2 ^ (52 - f).toNat, 52 - f⟩ =
      ((n * 2 ^ (52 - f).toNat : Nat) : ℚ) * (2:ℚ) ^ (-(52 - f)) := rfl
  rw [hval, Nat.cast_mul, cast_pow_toNat _ (by omega), mul_assoc,
    ← zpow_add₀ (by norm_num : (2:ℚ) ≠ 0)]
  simp

theorem lengthCap_le (n : Nat) (h2 : n ≤ 2 ^ 48) :
    Dyadic.toRat (lengthCap n) ≤ (6 * n : ℚ)/5 + 1/8 := by
  by_cases h1 : 1 ≤ n
  · obtain ⟨en, he4, he52, hstruct, _⟩ := floatOfNat_exact n h1 h2
    rw [lengthCap, hstruct]
    simp only [dmul, d12]
    rw [roundDyadic, if_pos (by omega : (0:Int) ≤ en + 52)]
    have hm1 : 1 ≤ n * 2 ^ en.toNat * 5404319552844595 := by
      have hp : 0 < 2 ^ en.toNat := by positivity
      have := Nat.mul_pos (Nat.mul_pos (by omega : 0 < n) hp)
        (by norm_num : 0 < 5404319552844595)
      omega
    have hm320 : n * 2 ^ en.toNat * 5404319552844595 < 2 ^ 320 := by
      have hen : en.toNat ≤ 52 := by omega
      calc n * 2 ^ en.toNat * 5404319552844595
          ≤ 2 ^ 48 * 2 ^ 52 * 5404319552844595 := by
            have e1 : 2 ^ en.toNat ≤ 2 ^ 52 := Nat.pow_le_pow_right (by norm_num) hen
            exact Nat.mul_le_mul (Nat.mul_le_mul h2 e1) (le_refl _)
        _ < 2 ^ 320 := by norm_num
    have hb1 : 1 ≤ 2 ^ (en + 52).toNat := Nat.one_le_two_pow
    have hb320 : 2 ^ (en + 52).toNat < 2 ^ 320 := by
      have : (en + 52).toNat ≤ 104 := by omega
      calc (2:Nat) ^ (en + 52).toNat ≤ 2 ^ 104 := Nat.pow_le_pow_right (by norm_num) this
        _ < 2 ^ 320 := by norm_num
    have herr := roundQ_err (n * 2 ^ en.toNat * 5404319552844595)
      (2 ^ (en + 52).toNat) hm1 hb1 hm320 hb320
    set T := Dyadic.toRat (roundQ (n * 2 ^ en.toNat * 5404319552844595)
      (2 ^ (en + 52).toNat)) with hT
    have hvB : ((n * 2 ^ en.toNat * 5404319552844595 : Nat) : ℚ) /
        ((2 ^ (en + 52).toNat : Nat) : ℚ) =
        (n:ℚ) * 5404319552844595 / (2:ℚ) ^ (52:Int) := by
      rw [cast_pow_toNat _ (by omega : (0:Int) ≤ en + 52)]
      push_cast [cast_pow_toNat en (by omega : (0:Int) ≤ en)]
      rw [zpow_add₀ (by norm_num : (2:ℚ) ≠ 0)]
      rw [show (n:ℚ) * (2:ℚ) ^ en * 5404319552844595 =
        (2:ℚ) ^ en * ((n:ℚ) * 5404319552844595) by ring]
      rw [mul_div_mul_left _ _ (ne_of_gt (q2pos en))]
    rw [hvB] at herr
    have h52 : (2:ℚ) ^ (52:Int) = 4503599627370496 := by norm_num
    have h53 : (2:ℚ) ^ (-53:Int) = 1/9007199254740992 := by
      rw [zpow_neg]
      norm_num
    rw [h52, h53] at herr
    have hn0 : (0:ℚ) ≤ (n:ℚ) := Nat.cast_nonneg n
    have hn48 : (n:ℚ) ≤ 281474976710656 := by
      exact_mod_cast le_trans h2 (by norm_num : (2:ℕ) ^ 48 ≤ 281474976710656)
    obtain ⟨hlo, hhi⟩ := abs_le.mp herr
    nlinarith [hn0, hn48, hlo, hhi]
  · have hn : n = 0 := by omega
    subst hn
    have hz : lengthCap 0 = ⟨0, 0⟩ := by decide
    rw [hz]
    norm_num [Dyadic.toRat, ratOf]

theorem natGtD_iff (k : Nat) (d : Dyadic) :
    natGtD k d = true ↔ Dyadic.toRat d < (k:ℚ) := by
  rw [natGtD, Dyadic.toRat, ratOf]
  have h2ne : (2:ℚ) ≠ 0 := by norm_num
  by_cases he : (0:Int) ≤ d.e
  · rw [if_pos he, decide_eq_true_eq]
    rw [← Nat.cast_lt (α := ℚ), Nat.cast_mul, cast_pow_toNat _ he]
    constructor
    · intro h
      have hm := mul_lt_mul_of_pos_right h (q2pos (-d.e))
      have hx : (k:ℚ) * 2 ^ d.e * 2 ^ (-d.e) = k := by
        rw [mul_assoc, ← zpow_add₀ h2ne]
        simp
      rwa [hx] at hm
    · intro h
      have hm := mul_lt_mul_of_pos_right h (q2pos d.e)
      have hx : (d.m:ℚ) * 2 ^ (-d.e) * 2 ^ d.e = d.m := by
        rw [mul_assoc, ← zpow_add₀ h2ne]
        simp
      rwa [hx] at hm
  · rw [if_neg he, decide_eq_true_eq]
    rw [← Nat.cast_lt (α := ℚ), Nat.cast_mul, cast_pow_toNat _ (by omega : (0:Int) ≤ -d.e)]

/-- C10: `optimize_section` never returns more than 1.2 times the input
length (stated integrally: five times the output length is at most six
times the input length), and whenever the cleaned response exceeds that
bound the returned string is exactly its first `len(content)` characters.
The hypothesis bounds the input length by 2^48 characters so that the
double-precision computation of `input_length * 1.2` stays within the
slack accounted for; real inputs are far below it. -/
theorem optimize_section_length_cap (content resp : List Char)
    (hn : content.length ≤ 2 ^ 48) :
    5 * (optimize_section content resp).length ≤ 6 * content.length ∧
    (6 * content.length < 5 * (clean_response resp).length →
      optimize_section content resp = (clean_response resp).take content.length) := by
  have hcap := lengthCap_le content.length hn
  simp only [optimize_section]
  by_cases hc : natGtD (clean_response resp).length (lengthCap content.length) = true
  · rw [if_pos hc]
    constructor
    · have hlen : ((clean_response resp).take content.length).length ≤ content.length := by
        simp [List.length_take]
      omega
    · intro _
      rfl
  · rw [if_neg hc]
    have hle : ¬ (Dyadic.toRat (lengthCap content.length) <
        ((clean_response resp).length : ℚ)) :=
      fun h => hc ((natGtD_iff _ _).mpr h)
    push_neg at hle
    have hout : ((clean_response resp).length : ℚ) ≤ (6 * content.length : ℚ)/5 + 1/8 :=
      le_trans hle hcap
    constructor
    · have h5 : ((5 * (clean_response resp).length : ℕ) : ℚ) <
          ((6 * content.length + 1 : ℕ) : ℚ) := by
        push_cast
        push_cast at hout
        linarith
      have := (Nat.cast_lt (α := ℚ)).mp h5
      omega
    · intro hgt
      exfalso
      have hq : ((6 * content.length + 1 : ℕ) : ℚ) ≤
          ((5 * (clean_response resp).length : ℕ) : ℚ) := by
        exact_mod_cast hgt
      push_cast at hq
      push_cast at hout
      linarith

/-- Concrete content (10 characters) for the C10 witness. -/
def capContent : List Char := "aaaaaaaaaa".toList

/-- Concrete generator response (13 characters) that survives cleaning and
exceeds the 120 % cap. -/
def capResp : List Char := "bbbbbbbbbbbbb".toList

/-- Witness for C10 at a concrete input: the 13-character response exceeds
the cap for a 10-character section, so both conjuncts bite. -/
theorem optimize_section_length_cap_witness :
    5 * (optimize_section capContent capResp).length ≤ 6 * capContent.length ∧
    (6 * capContent.length < 5 * (clean_response capResp).length →
      optimize_section capContent capResp = (clean_response capResp).take capContent.length) :=
  optimize_section_length_cap capContent capResp (by decide)
